import Mathlib

/-!
# Verification of the wide-sheet extraction / carry-forward reconciliation engine

Shallow embedding of the core data pipeline of `src/app.js` (functions
`cleanNumber` and `processData`).  Spreadsheet cells are strings (the CSV
parser delivers text cells); JavaScript numbers are modelled as exact
rationals (`ℚ`), so floating-point rounding and non-finite values are outside
the model.  A JavaScript array access `row[i]` that is out of range yields
`undefined`, which every consumer of the pipeline immediately coerces with
`|| ''` or a falsy check; we therefore model rows as `List String` with
out-of-range access returning `""`.  The carry map `previousDayRemain` is
modelled as a total function `String → ℚ` defaulting to `0`: the source only
ever observes it through `previousDayRemain[code] || 0` and the falsy test
`!previousDayRemain[code]`, both of which identify an absent entry with a
zero entry.  The `dateLabel` string computed for each day block is display
metadata and is not part of the verified state.
-/

namespace Nigiben

/-- Substring test, the model of JavaScript `String.prototype.includes`. -/
def strIncludes (s pat : String) : Bool :=
  s.data.tails.any (fun t => pat.data.isPrefixOf t)

/-- Model of JavaScript `String.prototype.trim` (strip whitespace at both ends). -/
def jsTrim (s : String) : String :=
  ⟨((s.data.dropWhile Char.isWhitespace).reverse.dropWhile Char.isWhitespace).reverse⟩

/-- Model of `val.toString().replace(/,/g, '')`: remove every comma. -/
def stripCommas (s : String) : String :=
  ⟨s.data.filter (fun c => c ≠ ',')⟩

/-- Model of JavaScript `String.prototype.toLowerCase` (the headers matched by
the classifier contain only ASCII letters and Thai script, on which the two
agree). -/
def jsToLower (s : String) : String :=
  ⟨s.data.map Char.toLower⟩

/-- Cell access `row[i]` with JavaScript out-of-range `undefined` collapsed to `""`. -/
def getCell (row : List String) (i : Nat) : String :=
  row.getD i ""

/-- Numeric value of a digit string. -/
def digitsVal (ds : List Char) : Nat :=
  ds.foldl (fun a c => 10 * a + (c.toNat - '0'.toNat)) 0

/-- Exponent part after the `e`/`E` marker: optional sign then digits;
a malformed exponent contributes `0` (JavaScript `parseFloat` stops before it). -/
def parseSignedExp : List Char → Int
  | '+' :: rest =>
    let ds := rest.takeWhile Char.isDigit
    if ds.isEmpty then 0 else (digitsVal ds : Int)
  | '-' :: rest =>
    let ds := rest.takeWhile Char.isDigit
    if ds.isEmpty then 0 else -(digitsVal ds : Int)
  | cs =>
    let ds := cs.takeWhile Char.isDigit
    if ds.isEmpty then 0 else (digitsVal ds : Int)

/-- Exponent of a decimal literal, `0` when absent or malformed. -/
def parseExponent : List Char → Int
  | 'e' :: rest => parseSignedExp rest
  | 'E' :: rest => parseSignedExp rest
  | _ => 0

/-- Power `10 ^ e` over `ℚ` for a signed exponent. -/
def pow10 (e : Int) : ℚ :=
  if 0 ≤ e then ((10 : ℚ) ^ e.toNat) else ((10 : ℚ) ^ (-e).toNat)⁻¹

/-- Model of JavaScript `parseFloat`: skip leading whitespace, optional sign,
then the longest prefix of the form `digits [. digits] [exponent]` or
`. digits [exponent]`; `none` models `NaN` (no parsable prefix).  Non-finite
results (`Infinity` literals / overflow) are outside the rational model. -/
def parseFloatQ (s : String) : Option ℚ :=
  let cs0 := s.data.dropWhile Char.isWhitespace
  let signed : ℚ × List Char :=
    match cs0 with
    | '-' :: rest => (-1, rest)
    | '+' :: rest => (1, rest)
    | _ => (1, cs0)
  let sgn := signed.1
  let cs := signed.2
  let intDs := cs.takeWhile Char.isDigit
  let rest1 := cs.dropWhile Char.isDigit
  match rest1 with
  | '.' :: rest2 =>
    let fracDs := rest2.takeWhile Char.isDigit
    let rest3 := rest2.dropWhile Char.isDigit
    if intDs.isEmpty && fracDs.isEmpty then none
    else
      let mant : ℚ := (digitsVal intDs : ℚ) + (digitsVal fracDs : ℚ) / ((10 : ℚ) ^ fracDs.length)
      some (sgn * mant * pow10 (parseExponent rest3))
  | _ =>
    if intDs.isEmpty then none
    else some (sgn * (digitsVal intDs : ℚ) * pow10 (parseExponent rest1))

/-- A value reaching `cleanNumber`: a text cell or an already-numeric value. -/
inductive CellVal where
  | str (s : String)
  | num (q : ℚ)

/-- The normalizer `cleanNumber` from `src/app.js` (lines 110-118).  For a numeric input the
source first returns `0` on the falsy value `0` and otherwise returns the
number itself, which is the identity in both cases.  For a string: falsy
(empty) → 0; strip commas and trim; `""` or `"-"` → 0; `parseFloat`; `NaN` → 0. -/
def cleanNumber : CellVal → ℚ
  | .num q => q
  | .str s =>
    if s = "" then 0
    else
      let cleanStr := jsTrim (stripCommas s)
      if cleanStr = "" ∨ cleanStr = "-" then 0
      else
        match parseFloatQ cleanStr with
        | none => 0
        | some q => q

/-- Semantic role of a day-block column, derived from its header text. -/
inductive ColRole where
  | broughtFwd
  | receive
  | sell
  | wasted
  | ignored
deriving DecidableEq

/-- The header classifier: the `if`/`else if` keyword chain of
`src/app.js` lines 175-183, applied to the lower-cased header cell. -/
def headerRole (h : String) : ColRole :=
  let hl := jsToLower h
  if strIncludes hl "ยกมา" then .broughtFwd
  else if strIncludes hl "รับเข้า" || strIncludes hl "total" then .receive
  else if strIncludes hl "ขาย" || strIncludes hl "ตัดสต็อก" then .sell
  else if strIncludes hl "was" || strIncludes hl "ทิ้ง" then .wasted
  else .ignored

/-- Per-day-block extraction accumulator `(received, sold, waste, broughtForwardSheet)`. -/
structure Extract where
  received : ℚ
  sold : ℚ
  waste : ℚ
  bfSheet : ℚ
deriving DecidableEq

/-- One step of the 8-column scan of a day block (`src/app.js` lines 170-184):
brought-forward keeps the last matching raw value, received takes the maximum
of absolute values, sold and waste sum absolute values. -/
def extractStep (row1 row : List String) (col : Nat) (acc : Extract) (c : Nat) : Extract :=
  let header := getCell row1 (col + c)
  let val := cleanNumber (.str (getCell row (col + c)))
  let absVal := |val|
  match headerRole header with
  | .broughtFwd => { acc with bfSheet := val }
  | .receive => { acc with received := max acc.received absVal }
  | .sell => { acc with sold := acc.sold + absVal }
  | .wasted => { acc with waste := acc.waste + absVal }
  | .ignored => acc

/-- Scan the 8 columns of the day block starting at `col`. -/
def extractRow (row1 row : List String) (col : Nat) : Extract :=
  (List.range 8).foldl (extractStep row1 row col) ⟨0, 0, 0, 0⟩

/-- Product-row validation (`src/app.js` line 155): the category cell
(column 1) and the name cell (column 3) must be non-empty after trimming.
The code cell (column 2) is not inspected. -/
def validRow (row : List String) : Bool :=
  !(jsTrim (getCell row 1) == "") && !(jsTrim (getCell row 3) == "")

/-- One emitted per-product per-day record (`src/app.js` lines 201-210). -/
structure ProductRec where
  category : String
  code : String
  name : String
  broughtForward : ℚ
  received : ℚ
  sold : ℚ
  waste : ℚ
  remain : ℚ
deriving DecidableEq

/-- One day's output block (`src/app.js` lines 213-218, minus the display
label). -/
structure DayData where
  dayNum : Nat
  hasData : Bool
  products : List ProductRec
deriving DecidableEq

/-- Result of the per-day row loop: emitted records, activity flag, carry map. -/
structure RowsOut where
  recs : List ProductRec
  hasAny : Bool
  st : String → ℚ

/-- Point update of the carry map. -/
def updState (st : String → ℚ) (k : String) (v : ℚ) : String → ℚ :=
  fun x => if x = k then v else st x

/-- Processing of one valid row on one day (`src/app.js` lines 160-210):
extract the day block, apply the day-1 seed
(`day === 1 && !previousDayRemain[code] && broughtForwardSheet > 0`), read
`broughtForward` (`previousDayRemain[code] || 0`), compute `remain`, and
return the emitted record together with the updated carry map
(`previousDayRemain[code] = remain`). -/
def rowOutput (day : Nat) (row1 row : List String) (col : Nat) (st : String → ℚ) :
    ProductRec × (String → ℚ) :=
  let code := getCell row 2
  let e := extractRow row1 row col
  let st1 := if day = 1 ∧ st code = 0 ∧ 0 < e.bfSheet then updState st code e.bfSheet else st
  let broughtForward := st1 code
  let remain := broughtForward + e.received - e.sold - e.waste
  (⟨getCell row 1, code, getCell row 3, broughtForward, e.received, e.sold, e.waste, remain⟩,
   updState st1 code remain)

/-- The inner row loop of one day (`src/app.js` lines 151-211): skip invalid
rows; for a valid row emit its record, thread the carry map, and raise the
activity flag when any of the five numeric fields is nonzero. -/
def processRows (day : Nat) (row1 : List String) (col : Nat) :
    List (List String) → (String → ℚ) → Bool → RowsOut
  | [], st, hasAny => ⟨[], hasAny, st⟩
  | row :: rest, st, hasAny =>
    if validRow row then
      let out := rowOutput day row1 row col st
      let r := out.1
      let hasAny' :=
        if r.broughtForward ≠ 0 ∨ r.received ≠ 0 ∨ r.sold ≠ 0 ∨ r.waste ≠ 0 ∨ r.remain ≠ 0 then
          true
        else hasAny
      let res := processRows day row1 col rest out.2 hasAny'
      ⟨r :: res.recs, res.hasAny, res.st⟩
    else
      processRows day row1 col rest st hasAny

/-- One full day (`src/app.js` lines 137-219): the block starts at column
`8 + (day − 1) * 8`; return the day's data and the updated carry map. -/
def processDay (row1 : List String) (rows : List (List String)) (day : Nat)
    (st : String → ℚ) : DayData × (String → ℚ) :=
  let col := 8 + (day - 1) * 8
  let out := processRows day row1 col rows st false
  (⟨day, out.hasAny, out.recs⟩, out.st)

/-- The day loop `for (day = 1; day <= maxDays; day++)`, counting down the
number of remaining days while threading the carry map. -/
def runFrom (row1 : List String) (rows : List (List String)) :
    Nat → Nat → (String → ℚ) → List DayData
  | 0, _, _ => []
  | n + 1, day, st =>
    let step := processDay row1 rows day st
    step.1 :: runFrom row1 rows n (day + 1) step.2

/-- The day-block count (`src/app.js` lines 125-131):
`Math.floor((totalCols − 8) / 8)` (JavaScript floor division of a possibly
negative value, hence `Int.fdiv`), capped above at 31 then below at 1. -/
def maxDaysOf (totalCols : Nat) : Int :=
  let m := Int.fdiv ((totalCols : Int) - 8) 8
  let m1 := if 31 < m then 31 else m
  if m1 < 1 then 1 else m1

/-- The reconciliation stage: run every day in increasing order over the data
rows (`data` minus the header row), starting from the empty carry map. -/
def reconcile (data : List (List String)) : List DayData :=
  let row1 := data.headD []
  runFrom row1 (data.drop 1) (maxDaysOf row1.length).toNat 1 (fun _ => 0)

/-- The day filter (`src/app.js` lines 221-225): keep the days with data,
unless none has data, in which case keep the original list. -/
def dayFilter (days : List DayData) : List DayData :=
  let valid := days.filter (·.hasData)
  if 0 < valid.length then valid else days

/-- The full data pipeline of `processData` (`src/app.js` lines 120-225):
the guard `data.length < 2` emits nothing, otherwise reconcile and filter. -/
def processData (data : List (List String)) : List DayData :=
  if data.length < 2 then [] else dayFilter (reconcile data)

/-! ### Concrete sheets used to evaluate the pipeline

Each sheet is a header row followed by product rows; header columns 8-15
(and 16-23 for two-day sheets) carry the Thai/English role keywords the
classifier matches on. -/

/-- One product sold 5 with no stock: its `remain` is negative. -/
def exC1neg : List (List String) :=
  [["","","","","","","","","ขาย","","","","","","",""],
   ["","Cat","P1","Prod","","","","","5","","","","","","",""]]

/-- The record `processData` emits for `exC1neg`. -/
def exC1rec : ProductRec := ⟨"Cat","P1","Prod",0,0,5,0,-5⟩

/-- The day block `processData` emits for `exC1neg`. -/
def exC1dd : DayData := ⟨1, true, [exC1rec]⟩

/-- Two-day sheet, one product: day 1 brought-forward 10, received 5, sold 3;
day 2 received 4, sold 2. -/
def exC2 : List (List String) :=
  [["","","","","","","","",
    "ยกมา","รับเข้า","ขาย","","","","","",
    "","รับเข้า","ขาย","","","","",""],
   ["","Cat","P2","Prod2","","","","",
    "10","5","3","","","","","",
    "","4","2","","","","",""]]

/-- Day-1 record for `exC2`. -/
def exC2r1 : ProductRec := ⟨"Cat","P2","Prod2",10,5,3,0,12⟩

/-- Day-2 record for `exC2`. -/
def exC2r2 : ProductRec := ⟨"Cat","P2","Prod2",12,4,2,0,14⟩

/-- Day-1 block for `exC2`. -/
def exC2d1 : DayData := ⟨1, true, [exC2r1]⟩

/-- Day-2 block for `exC2`. -/
def exC2d2 : DayData := ⟨2, true, [exC2r2]⟩

/-- Sheet whose day-1 brought-forward cell holds the nonzero value `-5`. -/
def exC3a : List (List String) :=
  [["","","","","","","","","ยกมา","","","","","","",""],
   ["","Cat","P3","Prod3","","","","","-5","","","","","","",""]]

/-- Sheet with two rows of the same code `P3`: the first seeds 10 and sells
out to a zero remain, the second carries its own brought-forward cell 7. -/
def exC3b : List (List String) :=
  [["","","","","","","","","ยกมา","ขาย","","","","","",""],
   ["","Cat","P3","AAA","","","","","10","10","","","","","",""],
   ["","Cat","P3","BBB","","","","","7","","","","","","",""]]

/-- Sheet with a positive day-1 brought-forward cell of 9. -/
def exC3w : List (List String) :=
  [["","","","","","","","","ยกมา","","","","","","",""],
   ["","Cat","P3","Prod","","","","","9","","","","","","",""]]

/-- The single product row of `exC3w`. -/
def exC3row : List String :=
  ["","Cat","P3","Prod","","","","","9","","","","","","",""]

/-- Sheet whose product row has an empty code cell but a category and a name. -/
def exC4 : List (List String) :=
  [["","","","","","","","","total","","","","","","",""],
   ["","Cat","","NoCode","","","","","4","","","","","","",""]]

/-- Sheet with one valid product row and one row lacking a category. -/
def exC4w : List (List String) :=
  [["","","","","","","","","ขาย","","","","","","",""],
   ["","Cat","P4","Prod4","","","","","2","","","","","","",""],
   ["","","x","junk","","","","","9","","","","","","",""]]

/-- The day block `processData` emits for `exC4w`. -/
def exC4dd : DayData := ⟨1, true, [⟨"Cat","P4","Prod4",0,0,2,0,-2⟩]⟩

/-- Active day 1. -/
def exD1t : DayData := ⟨1, true, []⟩

/-- Inactive day 2. -/
def exD2f : DayData := ⟨2, false, []⟩

/-- Active day 3. -/
def exD3t : DayData := ⟨3, true, []⟩

/-- Inactive day 3. -/
def exD3f : DayData := ⟨3, false, []⟩

/-- Inactive day 1. -/
def exF1 : DayData := ⟨1, false, []⟩

/-- Inactive day 2. -/
def exF2 : DayData := ⟨2, false, []⟩

/-- The end-to-end scenario sheet: day 1 brought-forward "10", duplicated
received columns "5","5", sold columns "2","1", waste "0"; day 2 received "3",
sold "3". -/
def exC7 : List (List String) :=
  [["","","","","","","","",
    "ยกมา","รับเข้า","รับเข้า","ขาย","ขาย","ทิ้ง","","",
    "","รับเข้า","","ขาย","","","",""],
   ["","Nigiri","P7","Salmon","","","","",
    "10","5","5","2","1","0","","",
    "","3","","3","","","",""]]

/-- Sheet whose day-1 cells are all negative: received "-7", sold "-2",
waste "-1". -/
def exC9 : List (List String) :=
  [["","","","","","","","","รับเข้า","ขาย","ทิ้ง","","","","",""],
   ["","Cat","P9","Prod9","","","","","-7","-2","-1","","","","",""]]

/-- The record `processData` emits for `exC9`. -/
def exC9rec : ProductRec := ⟨"Cat","P9","Prod9",0,7,2,1,4⟩

/-- The day block `processData` emits for `exC9`. -/
def exC9dd : DayData := ⟨1, true, [exC9rec]⟩

/-- Two-day sheet where day 1 oversells: day 2 opens on a negative carry. -/
def exC9neg : List (List String) :=
  [["","","","","","","","",
    "ขาย","","","","","","","",
    "","","","","","","",""],
   ["","Cat","P9","ProdN","","","","","5","","","","","","","","","","","","","","",""]]

/-- Two rows of the same code `PX` on day 1: the first seeds 6 and sells 6
(remain 0), the second carries a positive brought-forward cell 4. -/
def exC10ce : List (List String) :=
  [["","","","","","","","","ยกมา","ขาย","","","","","",""],
   ["","Cat","PX","R1","","","","","6","6","","","","","",""],
   ["","Cat","PX","R2","","","","","4","","","","","","",""]]

/-- The day block `processData` emits for `exC10ce`. -/
def exC10ceDD : DayData :=
  ⟨1, true, [⟨"Cat","PX","R1",6,0,6,0,0⟩, ⟨"Cat","PX","R2",4,0,0,0,4⟩]⟩

/-- Two-day sheet with two rows of the same code `PD`. -/
def exC10w : List (List String) :=
  [["","","","","","","","",
    "ยกมา","","","","","","","",
    "","","","","","","",""],
   ["","Cat","PD","A","","","","","5","","","","","","","","","","","","","","",""],
   ["","Cat","PD","B","","","","","3","","","","","","","","","","","","","","",""]]

/-- Day-1 block for `exC10w`. -/
def exC10d1 : DayData :=
  ⟨1, true, [⟨"Cat","PD","A",5,0,0,0,5⟩, ⟨"Cat","PD","B",5,0,0,0,5⟩]⟩

/-- Day-2 block for `exC10w`. -/
def exC10d2 : DayData :=
  ⟨2, true, [⟨"Cat","PD","A",5,0,0,0,5⟩, ⟨"Cat","PD","B",5,0,0,0,5⟩]⟩

/- The arithmetic of `Rat` is `@[irreducible]` in Batteries, which blocks
kernel evaluation of the pipeline on concrete sheets; re-open it for this
development so `decide` can run the model. -/
attribute [local semireducible] Rat.add Rat.sub Rat.mul Rat.inv

/-! ### Helper lemmas -/

/-- Every element of a list sits at some index. -/
theorem exists_getElem?_of_mem {α : Type _} :
    ∀ (l : List α) (a : α), a ∈ l → ∃ i : Nat, l[i]? = some a := by
  intro l
  induction l with
  | nil => intro a ha; cases ha
  | cons b t ih =>
    intro a ha
    rcases List.mem_cons.mp ha with h | h
    · exact ⟨0, by simp [h]⟩
    · obtain ⟨i, hi⟩ := ih a h
      exact ⟨i + 1, by simpa using hi⟩

/-- The three absolute-value aggregates of the block scan stay non-negative. -/
theorem extractFold_nonneg (row1 row : List String) (col : Nat) :
    ∀ (l : List Nat) (acc : Extract), 0 ≤ acc.received → 0 ≤ acc.sold → 0 ≤ acc.waste →
      0 ≤ (l.foldl (extractStep row1 row col) acc).received ∧
      0 ≤ (l.foldl (extractStep row1 row col) acc).sold ∧
      0 ≤ (l.foldl (extractStep row1 row col) acc).waste := by
  intro l
  induction l with
  | nil => intro acc h1 h2 h3; exact ⟨h1, h2, h3⟩
  | cons c cs ih =>
    intro acc h1 h2 h3
    simp only [List.foldl_cons]
    refine ih _ ?_ ?_ ?_ <;>
      (unfold extractStep
       cases hrole : headerRole (getCell row1 (col + c)) <;> simp only [hrole])
    · exact h1
    · exact le_trans h1 (le_max_left _ _)
    · exact h1
    · exact h1
    · exact h1
    · exact h2
    · exact h2
    · exact add_nonneg h2 (abs_nonneg _)
    · exact h2
    · exact h2
    · exact h3
    · exact h3
    · exact h3
    · exact add_nonneg h3 (abs_nonneg _)
    · exact h3

/-- The extracted received/sold/waste of any row block are non-negative. -/
theorem extractRow_nonneg (row1 row : List String) (col : Nat) :
    0 ≤ (extractRow row1 row col).received ∧
    0 ≤ (extractRow row1 row col).sold ∧
    0 ≤ (extractRow row1 row col).waste :=
  extractFold_nonneg row1 row col (List.range 8) ⟨0, 0, 0, 0⟩ le_rfl le_rfl le_rfl

/-- Every record the row loop emits satisfies the stock-conservation identity. -/
theorem processRows_remain (day : Nat) (row1 : List String) (col : Nat) :
    ∀ (rows : List (List String)) (st : String → ℚ) (h : Bool) (r : ProductRec),
      r ∈ (processRows day row1 col rows st h).recs →
      r.remain = r.broughtForward + r.received - r.sold - r.waste := by
  intro rows
  induction rows with
  | nil => intro st h r hr; simp [processRows] at hr
  | cons row rest ih =>
    intro st h r hr
    cases hv : validRow row with
    | false => simp only [processRows, hv] at hr; simpa using ih _ _ r (by simpa using hr)
    | true =>
      simp only [processRows, hv, if_true] at hr
      rcases List.mem_cons.mp hr with h1 | h1
      · subst h1; rfl
      · exact ih _ _ r h1

/-- Every record the row loop emits has non-negative received, sold, waste. -/
theorem processRows_nonneg (day : Nat) (row1 : List String) (col : Nat) :
    ∀ (rows : List (List String)) (st : String → ℚ) (h : Bool) (r : ProductRec),
      r ∈ (processRows day row1 col rows st h).recs →
      0 ≤ r.received ∧ 0 ≤ r.sold ∧ 0 ≤ r.waste := by
  intro rows
  induction rows with
  | nil => intro st h r hr; simp [processRows] at hr
  | cons row rest ih =>
    intro st h r hr
    cases hv : validRow row with
    | false => simp only [processRows, hv] at hr; simpa using ih _ _ r (by simpa using hr)
    | true =>
      simp only [processRows, hv, if_true] at hr
      rcases List.mem_cons.mp hr with h1 | h1
      · subst h1
        obtain ⟨a, b, c⟩ := extractRow_nonneg row1 row col
        exact ⟨a, b, c⟩
      · exact ih _ _ r h1

/-- The row loop emits exactly one record per valid row. -/
theorem processRows_length (day : Nat) (row1 : List String) (col : Nat) :
    ∀ (rows : List (List String)) (st : String → ℚ) (h : Bool),
      (processRows day row1 col rows st h).recs.length = (rows.filter validRow).length := by
  intro rows
  induction rows with
  | nil => intro st h; simp [processRows]
  | cons row rest ih =>
    intro st h
    cases hv : validRow row with
    | false => simp [processRows, hv, List.filter_cons, ih]
    | true => simp [processRows, hv, List.filter_cons, ih]

/-- Every emitted record's identity fields come from a valid source row. -/
theorem processRows_sourceRow (day : Nat) (row1 : List String) (col : Nat) :
    ∀ (rows : List (List String)) (st : String → ℚ) (h : Bool) (r : ProductRec),
      r ∈ (processRows day row1 col rows st h).recs →
      ∃ row ∈ rows, validRow row = true ∧
        r.category = getCell row 1 ∧ r.code = getCell row 2 ∧ r.name = getCell row 3 := by
  intro rows
  induction rows with
  | nil => intro st h r hr; simp [processRows] at hr
  | cons row rest ih =>
    intro st h r hr
    cases hv : validRow row with
    | false =>
      simp only [processRows, hv] at hr
      obtain ⟨row', hm, hrest⟩ := ih _ _ r (by simpa using hr)
      exact ⟨row', List.mem_cons_of_mem _ hm, hrest⟩
    | true =>
      simp only [processRows, hv, if_true] at hr
      rcases List.mem_cons.mp hr with h1 | h1
      · subst h1; exact ⟨row, List.mem_cons_self _ _, hv, rfl, rfl, rfl⟩
      · obtain ⟨row', hm, hrest⟩ := ih _ _ r h1
        exact ⟨row', List.mem_cons_of_mem _ hm, hrest⟩

/-- Every day block of the day loop is produced by `processDay` at some day
and carry map. -/
theorem mem_runFrom (row1 : List String) (rows : List (List String)) :
    ∀ (n day : Nat) (st : String → ℚ) (dd : DayData),
      dd ∈ runFrom row1 rows n day st →
      ∃ (d : Nat) (st' : String → ℚ), dd = (processDay row1 rows d st').1 := by
  intro n
  induction n with
  | zero => intro day st dd h; simp [runFrom] at h
  | succ m ih =>
    intro day st dd h
    simp only [runFrom] at h
    rcases List.mem_cons.mp h with h1 | h1
    · exact ⟨day, st, h1⟩
    · exact ih _ _ dd h1

/-- Surviving the day filter means having been reconciled. -/
theorem mem_reconcile_of_mem_processData (data : List (List String)) (dd : DayData)
    (h : dd ∈ processData data) : dd ∈ reconcile data := by
  unfold processData at h
  split at h
  · cases h
  · simp only [dayFilter] at h
    split at h
    · exact List.mem_of_mem_filter h
    · exact h

/-- Every day block of the pipeline output carries the records of a row-loop
run. -/
theorem products_of_mem_processData (data : List (List String)) (dd : DayData)
    (h : dd ∈ processData data) :
    ∃ (d : Nat) (st : String → ℚ),
      dd.products =
        (processRows d (data.headD []) (8 + (d - 1) * 8) (data.drop 1) st false).recs := by
  have h1 := mem_reconcile_of_mem_processData data dd h
  unfold reconcile at h1
  obtain ⟨d, st, hdd⟩ := mem_runFrom _ _ _ _ _ _ h1
  exact ⟨d, st, by rw [hdd]; rfl⟩

/-- The emitted record's code is the row's code cell. -/
theorem rowOutput_code (day : Nat) (row1 row : List String) (col : Nat) (st : String → ℚ) :
    (rowOutput day row1 row col st).1.code = getCell row 2 := rfl

/-- The emitted record satisfies the stock-conservation identity. -/
theorem rowOutput_remain (day : Nat) (row1 row : List String) (col : Nat) (st : String → ℚ) :
    (rowOutput day row1 row col st).1.remain =
      (rowOutput day row1 row col st).1.broughtForward +
        (rowOutput day row1 row col st).1.received -
        (rowOutput day row1 row col st).1.sold - (rowOutput day row1 row col st).1.waste := rfl

/-- The row step leaves the carry map unchanged at every other code. -/
theorem rowOutput_state_other (day : Nat) (row1 row : List String) (col : Nat)
    (st : String → ℚ) (p : String) (hq : getCell row 2 ≠ p) :
    (rowOutput day row1 row col st).2 p = st p := by
  have hq' : ¬ p = getCell row 2 := fun hh => hq hh.symm
  simp only [rowOutput, updState, if_neg hq']
  split
  · simp [updState, hq']
  · rfl

/-- The row step writes the record's remain into the carry map at its code. -/
theorem rowOutput_state_self (day : Nat) (row1 row : List String) (col : Nat)
    (st : String → ℚ) :
    (rowOutput day row1 row col st).2 (getCell row 2) =
      (rowOutput day row1 row col st).1.remain := by
  simp [rowOutput, updState]

/-- Away from day 1 the seed cannot fire: broughtForward is read straight
from the carry map. -/
theorem rowOutput_bf (day : Nat) (row1 row : List String) (col : Nat) (st : String → ℚ)
    (hday : day ≠ 1) :
    (rowOutput day row1 row col st).1.broughtForward = st (getCell row 2) := by
  simp [rowOutput, hday]

/-- On day 1, with the carry entry at the row's code still zero, the record's
broughtForward is the sheet-stated value when positive and zero otherwise. -/
theorem rowOutput_bf_day1 (row1 row : List String) (col : Nat) (st : String → ℚ)
    (hst : st (getCell row 2) = 0) :
    (rowOutput 1 row1 row col st).1.broughtForward =
      (if 0 < (extractRow row1 row col).bfSheet then (extractRow row1 row col).bfSheet else 0) := by
  by_cases hpos : 0 < (extractRow row1 row col).bfSheet
  · have h1 : (rowOutput 1 row1 row col st).1.broughtForward =
        updState st (getCell row 2) (extractRow row1 row col).bfSheet (getCell row 2) := by
      simp only [rowOutput]
      rw [if_pos ⟨by trivial, hst, hpos⟩]
    rw [h1, if_pos hpos]
    simp [updState]
  · have h1 : (rowOutput 1 row1 row col st).1.broughtForward = st (getCell row 2) := by
      simp only [rowOutput]
      rw [if_neg (fun hc => hpos hc.2.2)]
    rw [h1, if_neg hpos, hst]

/-- After the row loop, the carry map at `p` holds the remain of the last
emitted record with code `p`, and is untouched when no such record exists. -/
theorem processRows_state (day : Nat) (row1 : List String) (col : Nat) (p : String) :
    ∀ (rows : List (List String)) (st : String → ℚ) (h : Bool),
      (((processRows day row1 col rows st h).recs.filter (fun r => r.code == p)) = [] →
        (processRows day row1 col rows st h).st p = st p) ∧
      (∀ r, ((processRows day row1 col rows st h).recs.filter (fun r => r.code == p)).getLast? =
          some r →
        (processRows day row1 col rows st h).st p = r.remain) := by
  intro rows
  induction rows with
  | nil => intro st h; simp [processRows]
  | cons row rest ih =>
    intro st h
    cases hv : validRow row with
    | false => simpa only [processRows, hv] using ih _ _
    | true =>
      simp only [processRows, hv, if_true]
      by_cases hq : getCell row 2 = p
      · have hfc : ∀ (l : List ProductRec),
            ((rowOutput day row1 row col st).1 :: l).filter (fun r => r.code == p) =
              (rowOutput day row1 row col st).1 :: l.filter (fun r => r.code == p) := by
          intro l
          simp [List.filter_cons, rowOutput_code, hq]
        constructor
        · intro hF
          rw [hfc] at hF
          cases hF
        · intro r hr
          rw [hfc] at hr
          cases hF : ((processRows day row1 col rest (rowOutput day row1 row col st).2
              (if (rowOutput day row1 row col st).1.broughtForward ≠ 0 ∨
                  (rowOutput day row1 row col st).1.received ≠ 0 ∨
                  (rowOutput day row1 row col st).1.sold ≠ 0 ∨
                  (rowOutput day row1 row col st).1.waste ≠ 0 ∨
                  (rowOutput day row1 row col st).1.remain ≠ 0 then true
              else h)).recs.filter (fun r => r.code == p)) with
          | nil =>
            rw [hF, List.getLast?_singleton] at hr
            cases hr
            refine ((ih _ _).1 hF).trans ?_
            rw [← hq]
            exact rowOutput_state_self day row1 row col st
          | cons r2 l2 =>
            rw [hF, List.getLast?_cons_cons] at hr
            exact (ih _ _).2 r (by rw [hF]; exact hr)
      · have hfc : ∀ (l : List ProductRec),
            ((rowOutput day row1 row col st).1 :: l).filter (fun r => r.code == p) =
              l.filter (fun r => r.code == p) := by
          intro l
          simp [List.filter_cons, rowOutput_code, hq]
        rw [hfc]
        constructor
        · intro hF
          exact ((ih _ _).1 hF).trans (rowOutput_state_other day row1 row col st p hq)
        · intro r hr
          exact (ih _ _).2 r hr

/-- Filtering by code keeps the record of a row bearing that code. -/
theorem filter_code_cons_pos (day : Nat) (row1 row : List String) (col : Nat)
    (st : String → ℚ) (p : String) (hq : getCell row 2 = p) (l : List ProductRec) :
    ((rowOutput day row1 row col st).1 :: l).filter (fun r => r.code == p) =
      (rowOutput day row1 row col st).1 :: l.filter (fun r => r.code == p) := by
  simp [List.filter_cons, rowOutput_code, hq]

/-- Filtering by code drops the record of a row bearing another code. -/
theorem filter_code_cons_neg (day : Nat) (row1 row : List String) (col : Nat)
    (st : String → ℚ) (p : String) (hq : getCell row 2 ≠ p) (l : List ProductRec) :
    ((rowOutput day row1 row col st).1 :: l).filter (fun r => r.code == p) =
      l.filter (fun r => r.code == p) := by
  simp [List.filter_cons, rowOutput_code, hq]

/-- Away from day 1, the same-code records of one day chain: each record's
broughtForward is the previous same-code record's remain, and the first one
reads the incoming carry map. -/
theorem processRows_chain (day : Nat) (row1 : List String) (col : Nat) (p : String)
    (hday : day ≠ 1) :
    ∀ (rows : List (List String)) (st : String → ℚ) (h : Bool),
      List.Chain' (fun a b => b.broughtForward = a.remain)
        ((processRows day row1 col rows st h).recs.filter (fun r => r.code == p)) ∧
      (∀ r, ((processRows day row1 col rows st h).recs.filter (fun r => r.code == p)).head? =
          some r → r.broughtForward = st p) := by
  intro rows
  induction rows with
  | nil => intro st h; simp [processRows]
  | cons row rest ih =>
    intro st h
    cases hv : validRow row with
    | false => simpa only [processRows, hv] using ih _ _
    | true =>
      simp only [processRows, hv, if_true]
      by_cases hq : getCell row 2 = p
      · rw [filter_code_cons_pos day row1 row col st p hq]
        constructor
        · rw [List.chain'_cons']
          refine ⟨?_, (ih _ _).1⟩
          intro y hy
          have hbf := (ih _ _).2 y (Option.mem_def.mp hy)
          rw [hbf, ← hq, rowOutput_state_self]
        · intro r hr
          rw [List.head?_cons] at hr
          cases hr
          rw [← hq]
          exact rowOutput_bf day row1 row col st hday
      · rw [filter_code_cons_neg day row1 row col st p hq]
        constructor
        · exact (ih _ _).1
        · intro r hr
          rw [(ih _ _).2 r hr]
          exact rowOutput_state_other day row1 row col st p hq

/-- On day 1, starting from a carry map that is zero at `p`, the first emitted
record with code `p` comes from the first valid row with that code, and its
broughtForward is that row's sheet value when positive and zero otherwise. -/
theorem processRows_seed (row1 : List String) (col : Nat) (p : String) :
    ∀ (rows : List (List String)) (st : String → ℚ) (h : Bool), st p = 0 →
      ∀ row₀, rows.find? (fun row => validRow row && (getCell row 2 == p)) = some row₀ →
      ∃ r, ((processRows 1 row1 col rows st h).recs.filter (fun r => r.code == p)).head? =
          some r ∧
        r.broughtForward =
          (if 0 < (extractRow row1 row₀ col).bfSheet then (extractRow row1 row₀ col).bfSheet
           else 0) := by
  intro rows
  induction rows with
  | nil => intro st h hst row₀ hfind; simp [List.find?] at hfind
  | cons row rest ih =>
    intro st h hst row₀ hfind
    rw [List.find?_cons] at hfind
    cases hv : validRow row with
    | false =>
      simp only [hv, Bool.false_and] at hfind
      simp only [processRows, hv]
      exact ih _ _ hst row₀ hfind
    | true =>
      by_cases hq : getCell row 2 = p
      · have hpred : (validRow row && (getCell row 2 == p)) = true := by simp [hv, hq]
        simp only [hpred] at hfind
        cases hfind
        simp only [processRows, hv, if_true]
        refine ⟨(rowOutput 1 row1 row col st).1, ?_, ?_⟩
        · rw [filter_code_cons_pos 1 row1 row col st p hq, List.head?_cons]
        · exact rowOutput_bf_day1 row1 row col st (by rw [hq]; exact hst)
      · have hpred : (validRow row && (getCell row 2 == p)) = false := by
          simp [hv, hq]
        simp only [hpred] at hfind
        simp only [processRows, hv, if_true]
        have hst2 : (rowOutput 1 row1 row col st).2 p = 0 := by
          rw [rowOutput_state_other 1 row1 row col st p hq]
          exact hst
        obtain ⟨r, h1, h2⟩ := ih _ _ hst2 row₀ hfind
        refine ⟨r, ?_, h2⟩
        rw [filter_code_cons_neg 1 row1 row col st p hq]
        exact h1

/-- The day block at index `i` of the day loop carries day number `day + i`. -/
theorem runFrom_dayNum (row1 : List String) (rows : List (List String)) :
    ∀ (n day : Nat) (st : String → ℚ) (i : Nat) (dd : DayData),
      (runFrom row1 rows n day st)[i]? = some dd → dd.dayNum = day + i := by
  intro n
  induction n with
  | zero => intro day st i dd h; simp [runFrom] at h
  | succ m ih =>
    intro day st i dd h
    simp only [runFrom] at h
    cases i with
    | zero =>
      rw [List.getElem?_cons_zero] at h
      cases h
      rfl
    | succ j =>
      rw [List.getElem?_cons_succ] at h
      have := ih (day + 1) _ j dd h
      omega

/-- Two consecutive blocks of the day loop: the later day's same-code records
chain among themselves, and its first same-code record's broughtForward is
the remain of the earlier day's last same-code record. -/
theorem runFrom_consecutive (row1 : List String) (rows : List (List String)) (p : String) :
    ∀ (n day : Nat) (st : String → ℚ) (i : Nat) (dd dd' : DayData), 1 ≤ day →
      (runFrom row1 rows n day st)[i]? = some dd →
      (runFrom row1 rows n day st)[i + 1]? = some dd' →
      List.Chain' (fun a b => b.broughtForward = a.remain)
        (dd'.products.filter (fun r => r.code == p)) ∧
      (∀ r r', (dd.products.filter (fun r => r.code == p)).getLast? = some r →
        (dd'.products.filter (fun r => r.code == p)).head? = some r' →
        r'.broughtForward = r.remain) := by
  intro n
  induction n with
  | zero => intro day st i dd dd' hday h h'; simp [runFrom] at h
  | succ m ih =>
    intro day st i dd dd' hday h h'
    simp only [runFrom] at h h'
    cases i with
    | zero =>
      rw [List.getElem?_cons_zero] at h
      cases h
      rw [List.getElem?_cons_succ] at h'
      cases m with
      | zero => simp [runFrom] at h'
      | succ k =>
        simp only [runFrom] at h'
        rw [List.getElem?_cons_zero] at h'
        cases h'
        have hne : day + 1 ≠ 1 := by omega
        constructor
        · exact (processRows_chain (day + 1) row1 (8 + (day + 1 - 1) * 8) p hne rows
            (processDay row1 rows day st).2 false).1
        · intro r r' hlast hhead
          have h1 : (processRows day row1 (8 + (day - 1) * 8) rows st false).st p = r.remain :=
            (processRows_state day row1 (8 + (day - 1) * 8) p rows st false).2 r hlast
          have h2 := (processRows_chain (day + 1) row1 (8 + (day + 1 - 1) * 8) p hne rows
            (processDay row1 rows day st).2 false).2 r' hhead
          rw [h2]
          exact h1
    | succ j =>
      rw [List.getElem?_cons_succ] at h h'
      exact ih (day + 1) _ j dd dd' (by omega) h h'

/-- The clamp keeps the day count at least 1. -/
theorem maxDaysOf_pos (t : Nat) : 1 ≤ maxDaysOf t := by
  simp only [maxDaysOf]
  split_ifs <;> omega

/-- A valid row has a non-blank category cell and a non-blank name cell. -/
theorem validRow_trim (row : List String) (hv : validRow row = true) :
    jsTrim (getCell row 1) ≠ "" ∧ jsTrim (getCell row 3) ≠ "" := by
  unfold validRow at hv
  simp only [Bool.and_eq_true, Bool.not_eq_true', beq_eq_false_iff_ne] at hv
  exact hv

/-- Defaulted last element of a cons. -/
theorem getLast?_getD_cons {α : Type _} :
    ∀ (l : List α) (a d : α), ((a :: l).getLast?).getD d = (l.getLast?).getD a := by
  intro l
  induction l with
  | nil => intro a d; rfl
  | cons b t ih =>
    intro a d
    rw [List.getLast?_cons_cons, ih b d, ih b a]

/-- The received aggregate of the block scan is the running maximum of
absolute values over the columns classified as received. -/
theorem foldE_received (row1 row : List String) (col : Nat) :
    ∀ (l : List Nat) (acc : Extract),
      (l.foldl (extractStep row1 row col) acc).received =
        (l.filter (fun c => headerRole (getCell row1 (col + c)) == ColRole.receive)).foldl
          (fun a c => max a |cleanNumber (.str (getCell row (col + c)))|) acc.received := by
  intro l
  induction l with
  | nil => intro acc; rfl
  | cons c cs ih =>
    intro acc
    rw [List.foldl_cons, ih, List.filter_cons]
    cases hrole : headerRole (getCell row1 (col + c)) <;> simp [extractStep, hrole]

/-- The sold aggregate of the block scan is the sum of absolute values over
the columns classified as sold. -/
theorem foldE_sold (row1 row : List String) (col : Nat) :
    ∀ (l : List Nat) (acc : Extract),
      (l.foldl (extractStep row1 row col) acc).sold =
        acc.sold + (((l.filter (fun c => headerRole (getCell row1 (col + c)) == ColRole.sell)).map
          (fun c => |cleanNumber (.str (getCell row (col + c)))|)).sum) := by
  intro l
  induction l with
  | nil => intro acc; simp
  | cons c cs ih =>
    intro acc
    rw [List.foldl_cons, ih, List.filter_cons]
    cases hrole : headerRole (getCell row1 (col + c)) <;>
      simp [extractStep, hrole] <;> ring

/-- The waste aggregate of the block scan is the sum of absolute values over
the columns classified as waste. -/
theorem foldE_waste (row1 row : List String) (col : Nat) :
    ∀ (l : List Nat) (acc : Extract),
      (l.foldl (extractStep row1 row col) acc).waste =
        acc.waste + (((l.filter (fun c => headerRole (getCell row1 (col + c)) == ColRole.wasted)).map
          (fun c => |cleanNumber (.str (getCell row (col + c)))|)).sum) := by
  intro l
  induction l with
  | nil => intro acc; simp
  | cons c cs ih =>
    intro acc
    rw [List.foldl_cons, ih, List.filter_cons]
    cases hrole : headerRole (getCell row1 (col + c)) <;>
      simp [extractStep, hrole] <;> ring

/-- The sheet brought-forward of the block scan is the last raw value over
the columns classified as brought-forward, defaulting to the accumulator. -/
theorem foldE_bf (row1 row : List String) (col : Nat) :
    ∀ (l : List Nat) (acc : Extract),
      (l.foldl (extractStep row1 row col) acc).bfSheet =
        ((((l.filter (fun c => headerRole (getCell row1 (col + c)) == ColRole.broughtFwd)).map
          (fun c => cleanNumber (.str (getCell row (col + c))))).getLast?).getD acc.bfSheet) := by
  intro l
  induction l with
  | nil => intro acc; rfl
  | cons c cs ih =>
    intro acc
    rw [List.foldl_cons, ih]
    simp only [List.filter_cons]
    cases hrole : headerRole (getCell row1 (col + c)) with
    | broughtFwd =>
      rw [if_pos (by simp [hrole]), List.map_cons, getLast?_getD_cons]
      congr 1
      simp [extractStep, hrole]
    | receive =>
      rw [if_neg (by simp [hrole])]
      congr 1
      simp [extractStep, hrole]
    | sell =>
      rw [if_neg (by simp [hrole])]
      congr 1
      simp [extractStep, hrole]
    | wasted =>
      rw [if_neg (by simp [hrole])]
      congr 1
      simp [extractStep, hrole]
    | ignored =>
      rw [if_neg (by simp [hrole])]
      congr 1
      simp [extractStep, hrole]

/-! ### Claim theorems -/

/-- C1: for every input sheet, every processed day and every emitted product
record, `remain = broughtForward + received − sold − waste` holds exactly
over the rationals, with no rounding; and a negative remain is preserved
unclamped in the emitted record, as the sheet `exC1neg` (sold 5 with no
stock) shows with an emitted remain of −5. -/
theorem remain_conservation :
    (∀ (data : List (List String)) (dd : DayData) (r : ProductRec),
      dd ∈ processData data → r ∈ dd.products →
      r.remain = r.broughtForward + r.received - r.sold - r.waste) ∧
    processData exC1neg = [exC1dd] := by
  constructor
  · intro data dd r hdd hr
    obtain ⟨d, st, hprod⟩ := products_of_mem_processData data dd hdd
    rw [hprod] at hr
    exact processRows_remain d (data.headD []) (8 + (d - 1) * 8) (data.drop 1) st false r hr
  · decide

/-- Witness for C1 at the concrete sheet `exC1neg`. -/
theorem remain_conservation_witness :
    exC1rec.remain = exC1rec.broughtForward + exC1rec.received - exC1rec.sold - exC1rec.waste :=
  remain_conservation.1 exC1neg exC1dd exC1rec (by decide) (by decide)

/-- C2: when two emitted day blocks carry consecutive day numbers and a code
`p` has exactly one record in each, the later record's broughtForward equals
the earlier record's remain: carry-forward continuity across consecutive
days of one processing run. -/
theorem carry_forward_continuity (data : List (List String)) (p : String)
    (dd dd' : DayData) (r r' : ProductRec)
    (h1 : dd ∈ processData data) (h2 : dd' ∈ processData data)
    (hsucc : dd.dayNum + 1 = dd'.dayNum)
    (hp : dd.products.filter (fun r => r.code == p) = [r])
    (hp' : dd'.products.filter (fun r => r.code == p) = [r']) :
    r'.broughtForward = r.remain := by
  have hm1 := mem_reconcile_of_mem_processData data dd h1
  have hm2 := mem_reconcile_of_mem_processData data dd' h2
  simp only [reconcile] at hm1 hm2
  obtain ⟨i, hi⟩ := exists_getElem?_of_mem _ dd hm1
  obtain ⟨j, hj⟩ := exists_getElem?_of_mem _ dd' hm2
  have hdi := runFrom_dayNum _ _ _ _ _ i dd hi
  have hdj := runFrom_dayNum _ _ _ _ _ j dd' hj
  have hij : j = i + 1 := by omega
  subst hij
  have hcons := runFrom_consecutive (data.headD []) (data.drop 1) p _ 1 (fun _ => 0) i dd dd'
    le_rfl hi hj
  exact hcons.2 r r' (by rw [hp]; rfl) (by rw [hp']; rfl)

/-- Witness for C2 at the two-day sheet `exC2`. -/
theorem carry_forward_continuity_witness : exC2r2.broughtForward = exC2r1.remain :=
  carry_forward_continuity exC2 "P2" exC2d1 exC2d2 exC2r1 exC2r2
    (by decide) (by decide) (by decide) (by decide) (by decide)

/-- C3 counterexample: the claim says the seed fires whenever the sheet value
is present and nonzero, and at most once per code.  On `exC3a` the sheet
value −5 is nonzero yet the emitted day-1 broughtForward is 0, not −5
(the code requires strict positivity); on `exC3b` the seed fires twice for
code `P3` (both records carry their own sheet values 10 and 7, the second
firing because the first row's remain returned the carry entry to zero). -/
theorem day1_seed_claim_counterexample :
    ((extractRow (exC3a.headD []) (exC3a.getD 1 []) 8).bfSheet = -5 ∧ (-5 : ℚ) ≠ 0 ∧
      processData exC3a = [⟨1, false, [⟨"Cat", "P3", "Prod3", 0, 0, 0, 0, 0⟩]⟩]) ∧
    processData exC3b =
      [⟨1, true, [⟨"Cat", "P3", "AAA", 10, 0, 10, 0, 0⟩,
        ⟨"Cat", "P3", "BBB", 7, 0, 0, 0, 7⟩]⟩] := by
  decide

/-- C3 (amended): on day 1, the first emitted record of a product code takes
its broughtForward from the Row Extractor's sheet-stated brought-forward
value when that value is strictly greater than zero, and 0 otherwise; the
seed is keyed on the carry entry being absent or zero, not on firing at most
once per code. -/
theorem day1_seed_amended (data : List (List String)) (p : String) (row₀ : List String)
    (hfind : (data.drop 1).find? (fun row => validRow row && (getCell row 2 == p)) =
      some row₀) :
    ∃ dd r, (reconcile data).head? = some dd ∧
      (dd.products.filter (fun r => r.code == p)).head? = some r ∧
      r.broughtForward =
        (if 0 < (extractRow (data.headD []) row₀ (8 + (1 - 1) * 8)).bfSheet
         then (extractRow (data.headD []) row₀ (8 + (1 - 1) * 8)).bfSheet else 0) := by
  simp only [reconcile]
  have hpos : 1 ≤ (maxDaysOf (data.headD []).length).toNat := by
    have := maxDaysOf_pos (data.headD []).length
    omega
  obtain ⟨n, hn⟩ : ∃ n, (maxDaysOf (data.headD []).length).toNat = n + 1 :=
    ⟨(maxDaysOf (data.headD []).length).toNat - 1, by omega⟩
  rw [hn]
  simp only [runFrom]
  obtain ⟨r, hh, hbf⟩ := processRows_seed (data.headD []) (8 + (1 - 1) * 8) p (data.drop 1)
    (fun _ => 0) false rfl row₀ hfind
  exact ⟨(processDay (data.headD []) (data.drop 1) 1 (fun _ => 0)).1, r, List.head?_cons, hh, hbf⟩

/-- Witness for the amended C3 at the sheet `exC3w` (sheet value 9 > 0). -/
theorem day1_seed_amended_witness :
    ∃ dd r, (reconcile exC3w).head? = some dd ∧
      (dd.products.filter (fun r => r.code == "P3")).head? = some r ∧
      r.broughtForward =
        (if 0 < (extractRow (exC3w.headD []) exC3row (8 + (1 - 1) * 8)).bfSheet
         then (extractRow (exC3w.headD []) exC3row (8 + (1 - 1) * 8)).bfSheet else 0) :=
  day1_seed_amended exC3w "P3" exC3row (by decide)

/-- C4 counterexample: the claim requires category, code and name to be
non-empty for a row to be extracted, but the sheet `exC4`, whose product row
has an empty code cell, still yields an emitted record on day 1: the
validation only inspects the category and name cells. -/
theorem row_validity_counterexample :
    processData exC4 = [⟨1, true, [⟨"Cat", "", "NoCode", 0, 4, 0, 0, 4⟩]⟩] ∧
    jsTrim (getCell (exC4.getD 1 []) 2) = "" := by
  decide

/-- C4 (amended): a row is extracted as a product row if and only if its
category and name cells are non-empty after trimming (the code cell is not
inspected): each emitted day block has exactly one record per valid row,
every record's identity fields come from a valid row, and in particular no
emitted record has a blank name or category. -/
theorem row_validity_amended (data : List (List String)) (dd : DayData)
    (h : dd ∈ processData data) :
    dd.products.length = ((data.drop 1).filter validRow).length ∧
    ∀ r ∈ dd.products,
      (∃ row ∈ data.drop 1, validRow row = true ∧ r.category = getCell row 1 ∧
        r.code = getCell row 2 ∧ r.name = getCell row 3) ∧
      jsTrim r.name ≠ "" ∧ jsTrim r.category ≠ "" := by
  obtain ⟨d, st, hprod⟩ := products_of_mem_processData data dd h
  constructor
  · rw [hprod]
    exact processRows_length d (data.headD []) (8 + (d - 1) * 8) (data.drop 1) st false
  · intro r hr
    rw [hprod] at hr
    obtain ⟨row, hm, hv, hcat, hcode, hname⟩ :=
      processRows_sourceRow d (data.headD []) (8 + (d - 1) * 8) (data.drop 1) st false r hr
    obtain ⟨hc1, hc3⟩ := validRow_trim row hv
    refine ⟨⟨row, hm, hv, hcat, hcode, hname⟩, ?_, ?_⟩
    · rw [hname]; exact hc3
    · rw [hcat]; exact hc1

/-- Witness for the amended C4 at the sheet `exC4w` (one valid row, one
category-less row that is skipped). -/
theorem row_validity_amended_witness :
    exC4dd.products.length = ((exC4w.drop 1).filter validRow).length ∧
    ∀ r ∈ exC4dd.products,
      (∃ row ∈ exC4w.drop 1, validRow row = true ∧ r.category = getCell row 1 ∧
        r.code = getCell row 2 ∧ r.name = getCell row 3) ∧
      jsTrim r.name ≠ "" ∧ jsTrim r.category ≠ "" :=
  row_validity_amended exC4w exC4dd (by decide)

/-- C5 counterexample: the claim says only trailing inactive days are
removed, so an inactive day followed by an active day is kept.  On the day
list `[active, inactive, active]` the filter also removes the middle
inactive day. -/
theorem day_filter_counterexample :
    dayFilter [exD1t, exD2f, exD3t] = [exD1t, exD3t] ∧
    exD2f ∉ dayFilter [exD1t, exD2f, exD3t] := by
  decide

/-- C5 (amended): the day filter removes every day lacking activity, not
only trailing ones, unless no day has activity, in which case the original
list is returned unchanged; in particular `[active, inactive, inactive]`
yields only day 1 and `[inactive, inactive]` is returned unchanged. -/
theorem day_filter_amended :
    (∀ days : List DayData,
      dayFilter days = if days.any (·.hasData) then days.filter (·.hasData) else days) ∧
    dayFilter [exD1t, exD2f, exD3f] = [exD1t] ∧
    dayFilter [exF1, exF2] = [exF1, exF2] := by
  refine ⟨?_, by decide, by decide⟩
  intro days
  by_cases h : days.any (·.hasData) = true
  · rw [if_pos h]
    simp only [dayFilter]
    rw [if_pos]
    obtain ⟨a, ha, hp⟩ := List.any_eq_true.mp h
    exact List.length_pos.mpr (List.ne_nil_of_mem (List.mem_filter.mpr ⟨ha, hp⟩))
  · rw [if_neg h]
    simp only [dayFilter]
    rw [if_neg]
    intro hlen
    obtain ⟨a, ha⟩ := List.exists_mem_of_length_pos hlen
    have hm := List.mem_filter.mp ha
    exact h (List.any_eq_true.mpr ⟨a, hm.1, hm.2⟩)

/-- C6 counterexample: the claim's example says totalColumns = 16 gives
2 days, but the locator computes `floor((16 − 8) / 8) = 1`. -/
theorem day_count_counterexample : maxDaysOf 16 = 1 ∧ (1 : Int) ≠ 2 := by
  decide

/-- C6 (amended): the day-block count is `floor((totalColumns − 8) / 8)`
clamped to the inclusive range [1, 31]; totalColumns = 8 gives 1 day,
totalColumns = 16 gives 1 day, totalColumns = 100 gives 11 days, and
totalColumns = 5 is clamped to 1 day. -/
theorem day_count_amended :
    (∀ t : Nat, maxDaysOf t = max 1 (min 31 (Int.fdiv ((t : Int) - 8) 8))) ∧
    maxDaysOf 8 = 1 ∧ maxDaysOf 16 = 1 ∧ maxDaysOf 100 = 11 ∧ maxDaysOf 5 = 1 := by
  refine ⟨?_, by decide, by decide, by decide, by decide⟩
  intro t
  simp only [maxDaysOf]
  split_ifs <;> omega

/-- C7: within one 8-column day block of a valid row, received is the
maximum of absolute values over the columns classified as received (from 0),
sold and waste are sums of absolute values over their columns, and the sheet
brought-forward is the last matching raw value; and the end-to-end scenario
`exC7` yields day 1 received 5 (max of the duplicated 5,5), sold 3, waste 0,
remain 12, then day 2 broughtForward 12 and remain 12. -/
theorem block_aggregation :
    (∀ (row1 row : List String) (col : Nat),
      (extractRow row1 row col).received =
        ((List.range 8).filter
            (fun c => headerRole (getCell row1 (col + c)) == ColRole.receive)).foldl
          (fun a c => max a |cleanNumber (.str (getCell row (col + c)))|) 0 ∧
      (extractRow row1 row col).sold =
        (((List.range 8).filter
            (fun c => headerRole (getCell row1 (col + c)) == ColRole.sell)).map
          (fun c => |cleanNumber (.str (getCell row (col + c)))|)).sum ∧
      (extractRow row1 row col).waste =
        (((List.range 8).filter
            (fun c => headerRole (getCell row1 (col + c)) == ColRole.wasted)).map
          (fun c => |cleanNumber (.str (getCell row (col + c)))|)).sum ∧
      (extractRow row1 row col).bfSheet =
        ((((List.range 8).filter
            (fun c => headerRole (getCell row1 (col + c)) == ColRole.broughtFwd)).map
          (fun c => cleanNumber (.str (getCell row (col + c))))).getLast?).getD 0) ∧
    processData exC7 =
      [⟨1, true, [⟨"Nigiri", "P7", "Salmon", 10, 5, 3, 0, 12⟩]⟩,
       ⟨2, true, [⟨"Nigiri", "P7", "Salmon", 12, 3, 3, 0, 12⟩]⟩] := by
  constructor
  · intro row1 row col
    refine ⟨?_, ?_, ?_, ?_⟩
    · simpa using foldE_received row1 row col (List.range 8) ⟨0, 0, 0, 0⟩
    · simpa using foldE_sold row1 row col (List.range 8) ⟨0, 0, 0, 0⟩
    · simpa using foldE_waste row1 row col (List.range 8) ⟨0, 0, 0, 0⟩
    · simpa using foldE_bf row1 row col (List.range 8) ⟨0, 0, 0, 0⟩
  · decide

/-- C8: the cell normalizer is total by construction (it is a function into
`ℚ` and never raises); it maps the empty cell, a whitespace-only cell and a
lone dash to 0, strips thousands separators ("1,234" ↦ 1234), maps
unparsable text to 0, and is idempotent: re-normalizing its own (numeric)
output changes nothing. -/
theorem cell_normalizer_spec :
    cleanNumber (.str "") = 0 ∧ cleanNumber (.str " ") = 0 ∧ cleanNumber (.str "-") = 0 ∧
    cleanNumber (.str "1,234") = 1234 ∧ cleanNumber (.str "abc") = 0 ∧
    (∀ v : CellVal, cleanNumber (.num (cleanNumber v)) = cleanNumber v) :=
  ⟨by decide, by decide, by decide, by decide, by decide, fun _ => rfl⟩

/-- C9: in every emitted record, received, sold and waste are non-negative
(received is a maximum of absolute values starting from 0, sold and waste
are sums of absolute values), for every input sheet including sheets with
negative cells; broughtForward and remain may still be negative, as the
two-day oversold sheet `exC9neg` shows (day 2 opens on broughtForward −5). -/
theorem nonneg_movement_fields :
    (∀ (data : List (List String)) (dd : DayData) (r : ProductRec),
      dd ∈ processData data → r ∈ dd.products →
      0 ≤ r.received ∧ 0 ≤ r.sold ∧ 0 ≤ r.waste) ∧
    processData exC9neg =
      [⟨1, true, [⟨"Cat", "P9", "ProdN", 0, 0, 5, 0, -5⟩]⟩,
       ⟨2, true, [⟨"Cat", "P9", "ProdN", -5, 0, 0, 0, -5⟩]⟩] := by
  constructor
  · intro data dd r hdd hr
    obtain ⟨d, st, hprod⟩ := products_of_mem_processData data dd hdd
    rw [hprod] at hr
    exact processRows_nonneg d (data.headD []) (8 + (d - 1) * 8) (data.drop 1) st false r hr
  · decide

/-- Witness for C9 at the all-negative-cells sheet `exC9`. -/
theorem nonneg_movement_fields_witness :
    0 ≤ exC9rec.received ∧ 0 ≤ exC9rec.sold ∧ 0 ≤ exC9rec.waste :=
  nonneg_movement_fields.1 exC9 exC9dd exC9rec (by decide) (by decide)

/-- C10 counterexample: the claim says a later row with the same code always
gets as broughtForward the remain just computed for the earlier row of that
code on the same day.  On the day-1 sheet `exC10ce` the earlier `PX` row's
remain is 0 but the later `PX` row's broughtForward is 4 (its own sheet
value, re-seeded because the carry entry was zero), so the same-code records
of the day do not chain. -/
theorem duplicate_code_counterexample :
    processData exC10ce = [exC10ceDD] ∧
    ¬ List.Chain' (fun a b => b.broughtForward = a.remain)
      (exC10ceDD.products.filter (fun r => r.code == "PX")) := by
  refine ⟨by decide, ?_⟩
  intro hch
  have hfl : exC10ceDD.products.filter (fun r => r.code == "PX") =
      [⟨"Cat", "PX", "R1", 6, 0, 6, 0, 0⟩, ⟨"Cat", "PX", "R2", 4, 0, 0, 0, 4⟩] := by decide
  rw [hfl, List.chain'_cons'] at hch
  have h4 := hch.1 ⟨"Cat", "PX", "R2", 4, 0, 0, 0, 4⟩ (by simp)
  exact absurd h4 (by decide)

/-- C10 (amended): the carry state is read and written once per valid row in
row order; on every day after the first, the same-code records of a day
chain (each later record's broughtForward equals the previous same-code
record's remain), and only the last such record's remain is carried into the
next day: the first same-code record of day d+1 opens on the last same-code
record's remain of day d.  On day 1 the chain can instead re-seed when the
earlier remain is zero and the later row's sheet brought-forward is
positive. -/
theorem duplicate_code_amended (data : List (List String)) (p : String) (i : Nat)
    (dd dd' : DayData)
    (h : (reconcile data)[i]? = some dd) (h' : (reconcile data)[i + 1]? = some dd') :
    List.Chain' (fun a b => b.broughtForward = a.remain)
      (dd'.products.filter (fun r => r.code == p)) ∧
    (∀ r r', (dd.products.filter (fun r => r.code == p)).getLast? = some r →
      (dd'.products.filter (fun r => r.code == p)).head? = some r' →
      r'.broughtForward = r.remain) := by
  simp only [reconcile] at h h'
  exact runFrom_consecutive (data.headD []) (data.drop 1) p _ 1 (fun _ => 0) i dd dd'
    le_rfl h h'

/-- Witness for the amended C10 at the two-day duplicate-code sheet
`exC10w`. -/
theorem duplicate_code_amended_witness :
    List.Chain' (fun a b => b.broughtForward = a.remain)
      (exC10d2.products.filter (fun r => r.code == "PD")) ∧
    (∀ r r', (exC10d1.products.filter (fun r => r.code == "PD")).getLast? = some r →
      (exC10d2.products.filter (fun r => r.code == "PD")).head? = some r' →
      r'.broughtForward = r.remain) :=
  duplicate_code_amended exC10w "PD" 0 exC10d1 exC10d2 (by decide) (by decide)

end Nigiben
